import Mathlib

set_option maxHeartbeats 1000000

/-!
Shallow embedding of the repository file jupyterlab_omnisci/altair.py.

The file bridges Ibis relational expressions and Altair/Vega-Lite charts.
We model:
  * materialized tables (column names and rows of rational values),
  * the small fragment of the Ibis expression API that the file uses
    (columns, groupby, aggregate, filter, column lookup, execute),
  * the rule-based rewriter update_spec together with its helpers
    translate_op and vl_aggregate_to_grouping_expr,
  * the global name-to-expression registry (ibis_transformation and
    retrieve_expr) with the generated names ibis_<i>,
  * the monkeypatched chart constructor (empty / updated_chart_init),
  * the renderer ibis_renderer as a trace of display and comm events.

Fallible Python operations (KeyError, AttributeError, Ibis validation
errors, RuntimeError, assert) are modelled with Except Err.  Mutation of
the spec dictionary is modelled by explicit state passing: update_spec
returns the new spec next to the resulting expression, and on an error
the partially mutated spec is returned together with the error.
-/

/-- Cell values of a materialized table.  Rationals give exact means. -/
abbrev Value := Rat

/-- A row is an association list from column name to value. -/
abbrev Row := List (String × Value)

/-- Association-list lookup, first binding wins (Python dict access). -/
def lookupStr {α : Type} : List (String × α) → String → Option α
  | [], _ => none
  | (k, v) :: rest, k' => if k = k' then some v else lookupStr rest k'

/-- A physical backing table of an Ibis expression: a schema assigning a
dtype string to each column name, the rows, and an opaque client id (the
connection reached through get_client). -/
structure BaseTable where
  schema : List (String × String)
  rows : List Row
  client : String
  deriving DecidableEq, Repr

/-- Column names of a base table (expr.columns in Ibis). -/
def BaseTable.cols (b : BaseTable) : List String := b.schema.map Prod.fst

/-- The shapes of Ibis expression that update_spec manipulates: a plain
table expression, or the GroupedTable returned by expr.groupby. -/
inductive Expr where
  | tbl (b : BaseTable)
  | grouped (b : BaseTable) (keys : List String)
  deriving DecidableEq, Repr

/-- A materialized result (what expr.execute() hands to pandas). -/
structure Table where
  cols : List String
  rows : List Row
  deriving DecidableEq, Repr

/-- Python exceptions raised by the modelled code paths. -/
inductive Err where
  | keyError
  | attrError
  | ibisError
  | runtimeError
  | assertionError
  deriving DecidableEq, Repr

/-! ### Aggregation helpers shared by the Ibis model and the client model -/

/-- Arithmetic mean of a list of values (groups are never empty when used). -/
def ratMean (vs : List Value) : Value := vs.sum / (vs.length : Value)

/-- Minimum of a list of values, 0 on the empty list. -/
def listMin : List Value → Value
  | [] => 0
  | v :: vs => vs.foldl min v

/-- Maximum of a list of values, 0 on the empty list. -/
def listMax : List Value → Value
  | [] => 0
  | v :: vs => vs.foldl max v

/-- The values of column f over a group of rows (nulls skipped). -/
def colVals (grp : List Row) (f : String) : List Value :=
  grp.filterMap (fun r => lookupStr r f)

/-- A grouping key: the tuple of values of the groupby columns. -/
abbrev GroupKey := List (Option Value)

/-- The grouping key of a row. -/
def keyTuple (keys : List String) (r : Row) : GroupKey := keys.map (lookupStr r)

/-- Insert a row into the group list, preserving first-appearance order. -/
def addToGroup (k : GroupKey) (r : Row) : List (GroupKey × List Row) → List (GroupKey × List Row)
  | [] => [(k, [r])]
  | (k', rs) :: rest =>
    if k' = k then (k', rs ++ [r]) :: rest else (k', rs) :: addToGroup k r rest

/-- Group rows by the tuple of their groupby column values, groups listed
in order of first appearance. -/
def groupRows (keys : List String) (rows : List Row) : List (GroupKey × List Row) :=
  rows.foldl (fun gs r => addToGroup (keyTuple keys r) r gs) []

/-- The aggregate methods of Ibis column expressions that the rewriter can
reach through getattr. -/
inductive AggOp where
  | count
  | sum
  | mean
  | min
  | max
  deriving DecidableEq, Repr

/-- Value of an aggregate method over the column values of one group. -/
def evalAggOp : AggOp → List Value → Value
  | .count, vs => (vs.length : Value)
  | .sum, vs => vs.sum
  | .mean, vs => ratMean vs
  | .min, vs => listMin vs
  | .max, vs => listMax vs

/-- A named metric handed to expr.aggregate: either an aggregate of one
column (expr[field].op().name(as)) or a whole-table count
(expr.count().name(as)). -/
inductive Metric where
  | colAgg (name : String) (op : AggOp) (field : String)
  | countAll (name : String)
  deriving DecidableEq, Repr

/-- The output column name of a metric (set through .name(as)). -/
def Metric.mname : Metric → String
  | .colAgg n _ _ => n
  | .countAll n => n

/-- Value of a metric on one group of rows. -/
def evalMetric (grp : List Row) : Metric → Value
  | .colAgg _ op f => evalAggOp op (colVals grp f)
  | .countAll _ => (grp.length : Value)

/-- The dtype Ibis derives for a metric column. -/
def metricDType (schema : List (String × String)) : Metric → String
  | .countAll _ => "int64"
  | .colAgg _ .count _ => "int64"
  | .colAgg _ .mean _ => "float64"
  | .colAgg _ _ f => (lookupStr schema f).getD ""

/-- One output row of an aggregation: the groupby key columns followed by
the metric columns. -/
def aggRow (keys : List String) (k : GroupKey) (grp : List Row) (ms : List Metric) : Row :=
  (keys.zip k).map (fun p => (p.1, p.2.getD 0)) ++
    ms.map (fun m => (m.mname, evalMetric grp m))

/-- Groups to aggregate over: without groupby keys the whole table is one
group (SQL aggregates over an ungrouped table return a single row). -/
def aggGroups (keys : List String) (rows : List Row) : List (GroupKey × List Row) :=
  if keys.isEmpty then [([], rows)] else groupRows keys rows

/-- Semantics of (grouped) expr.aggregate(ms) on a backing table. -/
def aggregateTable (b : BaseTable) (keys : List String) (ms : List Metric) : BaseTable :=
  { schema :=
      keys.map (fun c => (c, (lookupStr b.schema c).getD "")) ++
        ms.map (fun m => (m.mname, metricDType b.schema m)),
    rows := (aggGroups keys b.rows).map (fun g => aggRow keys g.1 g.2 ms),
    client := b.client }

/-! ### The Ibis expression API used by the rewriter -/

/-- expr.columns.  A GroupedTable has no columns attribute. -/
def Expr.columnsE : Expr → Except Err (List String)
  | .tbl b => .ok b.cols
  | .grouped _ _ => .error .attrError

/-- expr.groupby(keys).  Ibis validates the key names against the schema. -/
def Expr.groupbyOp : Expr → List String → Except Err Expr
  | .tbl b, keys =>
    if ∀ f ∈ keys, f ∈ b.cols then .ok (.grouped b keys) else .error .ibisError
  | .grouped _ _, _ => .error .attrError

/-- Validity of a metric against the backing table it is aggregated on. -/
def Metric.okFor (b : BaseTable) : Metric → Prop
  | .colAgg _ _ f => f ∈ BaseTable.cols b
  | .countAll _ => True

instance (b : BaseTable) : DecidablePred (Metric.okFor b) := fun m =>
  match m with
  | .colAgg _ _ f => inferInstanceAs (Decidable (f ∈ BaseTable.cols b))
  | .countAll _ => inferInstanceAs (Decidable True)

/-- expr.aggregate(ms), on a plain table (single output row) or on a
GroupedTable (one output row per group). -/
def Expr.aggregateOp : Expr → List Metric → Except Err Expr
  | .tbl b, ms =>
    if ∀ m ∈ ms, m.okFor b then .ok (.tbl (aggregateTable b [] ms)) else .error .ibisError
  | .grouped b keys, ms =>
    if ∀ m ∈ ms, m.okFor b then .ok (.tbl (aggregateTable b keys ms)) else .error .ibisError

/-- A comparison predicate built by the filter rewrite rules. -/
inductive FilterPred where
  | ge (f : String) (v : Value)
  | le (f : String) (v : Value)
  | eq (f : String) (v : Value)
  | gt (f : String) (v : Value)
  | lt (f : String) (v : Value)
  deriving DecidableEq, Repr

/-- Column a predicate refers to. -/
def FilterPred.pfield : FilterPred → String
  | .ge f _ => f
  | .le f _ => f
  | .eq f _ => f
  | .gt f _ => f
  | .lt f _ => f

/-- Truth of a predicate on one row (comparisons against null are false). -/
def evalPred (r : Row) : FilterPred → Bool
  | .ge f v => match lookupStr r f with | some x => decide (v ≤ x) | none => false
  | .le f v => match lookupStr r f with | some x => decide (x ≤ v) | none => false
  | .eq f v => match lookupStr r f with | some x => decide (x = v) | none => false
  | .gt f v => match lookupStr r f with | some x => decide (v < x) | none => false
  | .lt f v => match lookupStr r f with | some x => decide (x < v) | none => false

/-- expr.filter(preds): keep the rows on which every predicate holds.
Predicates naming columns the expression does not have are rejected by
Ibis; a GroupedTable has no filter attribute. -/
def Expr.filterOp : Expr → List FilterPred → Except Err Expr
  | .tbl b, ps =>
    if ∀ p ∈ ps, p.pfield ∈ b.cols then
      .ok (.tbl { b with rows := b.rows.filter (fun r => ps.all (evalPred r)) })
    else .error .ibisError
  | .grouped _ _, _ => .error .attrError

/-- expr[field]: column projection, failing when the name is unknown. -/
def Expr.getColE : Expr → String → Except Err Unit
  | .tbl b, f => if f ∈ b.cols then .ok () else .error .ibisError
  | .grouped _ _, _ => .error .attrError

/-- The materialized result of a table expression. -/
def materialTable (b : BaseTable) : Table := ⟨b.cols, b.rows⟩

/-- expr.execute(): materialize.  A GroupedTable cannot be executed. -/
def Expr.executeE : Expr → Except Err Table
  | .tbl b => .ok (materialTable b)
  | .grouped _ _ => .error .attrError

/-- get_client(expr): the backing connection of the expression. -/
def get_client : Expr → String
  | .tbl b => b.client
  | .grouped b _ => b.client

/-! ### translate_op and vl_aggregate_to_grouping_expr -/

/-- translate_op from the source: a two-entry dict lookup with the input
itself as the default. -/
def translate_op (op : String) : String :=
  (lookupStr [("mean", "mean"), ("average", "mean")] op).getD op

/-- Resolution of getattr(column, op) for the aggregate methods of a
column expression; unknown names raise AttributeError. -/
def colAggOfString (s : String) : Option AggOp :=
  if s = "count" then some .count
  else if s = "sum" then some .sum
  else if s = "mean" then some .mean
  else if s = "min" then some .min
  else if s = "max" then some .max
  else none

/-- One record of a Vega-Lite aggregate transform: op, optional field,
and the output name under the key as. -/
structure AggRec where
  op : String
  field : Option String
  as : String
  deriving DecidableEq, Repr

/-- vl_aggregate_to_grouping_expr from the source: select the field when
present, translate the op, fetch the aggregate method through getattr,
call it and name the result.  Without a field the expression is the whole
table, whose only aggregate method is count. -/
def vl_aggregate_to_grouping_expr (e : Expr) (a : AggRec) : Except Err Metric :=
  match a.field with
  | some f =>
    match e.getColE f with
    | .error er => .error er
    | .ok _ =>
      match colAggOfString (translate_op a.op) with
      | some op => .ok (.colAgg a.as op f)
      | none => .error .attrError
  | none =>
    if translate_op a.op = "count" then .ok (.countAll a.as) else .error .attrError

/-! ### The spec dictionary -/

/-- The dict at the filter key of a transform entry.  The recognized keys
are modelled as optional fields; any further keys (selection, oneOf, and,
or, not, ...) are kept opaquely in other. -/
structure FilterDict where
  field : Option String
  range : Option (Value × Value)
  equal : Option Value
  gt : Option Value
  lt : Option Value
  lte : Option Value
  gte : Option Value
  other : List (String × String)
  deriving DecidableEq, Repr

/-- Python truthiness of the filter dict: empty dicts are falsy. -/
def FilterDict.isEmpty (d : FilterDict) : Bool :=
  d.field.isNone && d.range.isNone && d.equal.isNone && d.gt.isNone &&
    d.lt.isNone && d.lte.isNone && d.gte.isNone && d.other.isEmpty

/-- The elif chain of update_spec: the first present key among range,
equal, gt, lt, lte, gte determines the predicate list; none present means
the filter is handed back to the client. -/
def filterPredsOf (d : FilterDict) (f : String) : Option (List FilterPred) :=
  match d.range with
  | some p => some [.ge f p.1, .le f p.2]
  | none =>
  match d.equal with
  | some v => some [.eq f v]
  | none =>
  match d.gt with
  | some v => some [.gt f v]
  | none =>
  match d.lt with
  | some v => some [.lt f v]
  | none =>
  match d.lte with
  | some v => some [.le f v]
  | none =>
  match d.gte with
  | some v => some [.ge f v]
  | none => none

/-- One entry of the transform array of a spec.  The keys the rewriter
pops are modelled as optional fields; all further keys (calculate, bin,
timeUnit, ...) are kept opaquely in other. -/
structure Transform where
  groupby : Option (List String)
  aggregate : Option (List AggRec)
  filter : Option FilterDict
  other : List (String × String)
  deriving DecidableEq, Repr

/-- Python truthiness of a transform dict: empty dicts are falsy and get
dropped by the comprehension at the end of update_spec. -/
def Transform.isEmpty (t : Transform) : Bool :=
  t.groupby.isNone && t.aggregate.isNone && t.filter.isNone && t.other.isEmpty

/-- The value of the data key of a spec: a generated name, inline values,
the url dict produced by the json data transformer, or a sql dict. -/
inductive DataDict where
  | named (name : String)
  | values (rows : List Row)
  | url (t : Table)
  | sql (q : String)
  deriving DecidableEq, Repr

/-- Access to the name key of a data dict (KeyError modelled as none). -/
def DataDict.nameOf : DataDict → Option String
  | .named n => some n
  | _ => none

/-- The dict stored under the spec key of a faceted or layered spec. -/
structure InnerSpec where
  data : Option DataDict
  other : List (String × String)
  deriving DecidableEq, Repr

/-- A Vega-Lite chart spec: the transform array, the data dict, the
optional nested spec dict, and all remaining keys held opaquely. -/
structure Spec where
  transform : Option (List Transform)
  data : Option DataDict
  sub : Option InnerSpec
  other : List (String × String)
  deriving DecidableEq, Repr

/-! ### update_spec -/

/-- Left-to-right evaluation of a Python list comprehension whose body can
raise: the first exception propagates. -/
def mapExcept {α β : Type} (f : α → Except Err β) : List α → Except Err (List β)
  | [] => .ok []
  | a :: rest =>
    match f a with
    | .error er => .error er
    | .ok b =>
      match mapExcept f rest with
      | .error er => .error er
      | .ok bs => .ok (b :: bs)

/-- The filter phase of one loop iteration of update_spec: pop the filter
key; a falsy value is dropped; otherwise read its field entry (KeyError
when absent), project the column out of the original expression, run the
elif chain, and either put the filter back (continue) or apply the
predicates to the running expression. -/
def processFilter (orig st : Expr) (t : Transform) : Transform × Except Err Expr :=
  match t.filter with
  | none => (t, .ok st)
  | some d =>
    if d.isEmpty then ({ t with filter := none }, .ok st)
    else
      match d.field with
      | none => ({ t with filter := none }, .error .keyError)
      | some f =>
        match orig.getColE f with
        | .error er => ({ t with filter := none }, .error er)
        | .ok _ =>
          match filterPredsOf d f with
          | none => (t, .ok st)
          | some preds =>
            match st.filterOp preds with
            | .error er => ({ t with filter := none }, .error er)
            | .ok st' => ({ t with filter := none }, .ok st')

/-- The aggregate phase of one loop iteration of update_spec: pop the
aggregate key; a falsy value is dropped; otherwise resolve every record
through vl_aggregate_to_grouping_expr against the original expression and
aggregate the running expression. -/
def processAggregate (orig st : Expr) (t : Transform) : Transform × Except Err Expr :=
  match t.aggregate with
  | none => processFilter orig st t
  | some [] => processFilter orig st { t with aggregate := none }
  | some (a :: rest) =>
    match mapExcept (vl_aggregate_to_grouping_expr orig) (a :: rest) with
    | .error er => ({ t with aggregate := none }, .error er)
    | .ok ms =>
      match st.aggregateOp ms with
      | .error er => ({ t with aggregate := none }, .error er)
      | .ok st' => processFilter orig st' { t with aggregate := none }

/-- One loop iteration of update_spec over a single transform entry: pop
the groupby key; a falsy value is dropped; when some listed field is not a
column of the running expression the key is put back and the whole entry
is skipped (continue); otherwise the running expression is grouped and the
aggregate and filter phases run. -/
def processTransform (orig st : Expr) (t : Transform) : Transform × Except Err Expr :=
  match t.groupby with
  | none => processAggregate orig st t
  | some [] => processAggregate orig st { t with groupby := none }
  | some (f :: fs) =>
    match st.columnsE with
    | .error er => ({ t with groupby := none }, .error er)
    | .ok cols =>
      if ∀ g ∈ f :: fs, g ∈ cols then
        match st.groupbyOp (f :: fs) with
        | .error er => ({ t with groupby := none }, .error er)
        | .ok st' => processAggregate orig st' { t with groupby := none }
      else
        (t, .ok st)

/-- The loop of update_spec over the transform array, returning the array
with its entries mutated in place.  On an exception the already processed
prefix and the partially popped entry stay mutated and the remaining
entries are untouched. -/
def updateSpecGo (orig : Expr) : Expr → List Transform → List Transform × Except Err Expr
  | st, [] => ([], .ok st)
  | st, t :: ts =>
    match processTransform orig st t with
    | (t', .error er) => (t' :: ts, .error er)
    | (t', .ok st') =>
      match updateSpecGo orig st' ts with
      | (ts', r) => (t' :: ts', r)

/-- update_spec from the source: run the loop over spec.get("transform",
[]), then drop the emptied transform entries and delete the transform key
when nothing is left.  The postlude does not run when the loop raised. -/
def update_spec (expr : Expr) (spec : Spec) : Spec × Except Err Expr :=
  match updateSpecGo expr expr (spec.transform.getD []) with
  | (ts, .error er) => ({ spec with transform := some ts }, .error er)
  | (ts, .ok st) =>
    if (ts.filter (fun t => !t.isEmpty)).isEmpty then
      ({ spec with transform := none }, .ok st)
    else
      ({ spec with transform := some (ts.filter (fun t => !t.isEmpty)) }, .ok st)

/-! ### set_data -/

/-- set_data from the source: write the data key of the nested spec when a
spec key is present, of the spec itself otherwise. -/
def set_data (s : Spec) (d : DataDict) : Spec :=
  match s.sub with
  | some i => { s with sub := some { i with data := some d } }
  | none => { s with data := some d }

/-! ### The global name registry -/

/-- The global dict _name_to_ibis, in insertion order. -/
abbrev IbisMap := List (String × Expr)

/-- dict.pop(k): remove the binding of k and return its value; none when
the key is absent. -/
def popKey (k : String) : IbisMap → Option (Expr × IbisMap)
  | [] => none
  | (k', v) :: rest =>
    if k' = k then some (v, rest)
    else (popKey k rest).map (fun p => (p.1, (k', v) :: p.2))

/-- dict assignment d[k] = v: overwrite in place, or append a new binding. -/
def dictInsert (k : String) (v : Expr) : IbisMap → IbisMap
  | [] => [(k, v)]
  | (k', v') :: rest =>
    if k' = k then (k, v) :: rest else (k', v') :: dictInsert k v rest

/-- The data name a spec resolves to: spec["data"]["name"], after first
descending into the spec key when one is present.  none models the
KeyError that the try block of retrieve_expr turns into RuntimeError. -/
def Spec.refName (s : Spec) : Option String :=
  match s.sub with
  | some i =>
    match i.data with
    | some d => d.nameOf
    | none => none
  | none =>
    match s.data with
    | some d => d.nameOf
    | none => none

/-- retrieve_expr from the source: pop the expression stored under the
resolved data name; any KeyError becomes a RuntimeError and leaves the
dict unchanged. -/
def retrieve_expr (s : Spec) (m : IbisMap) : Except Err Expr × IbisMap :=
  match s.refName with
  | none => (.error .runtimeError, m)
  | some n =>
    match popKey n m with
    | none => (.error .runtimeError, m)
    | some p => (.ok p.1, p.2)

/-! ### Generated names ibis_<i> -/

/-- Decimal digits of a natural number, least significant first. -/
def natDigitsRev (n : Nat) : List Char :=
  if h : n < 10 then [Nat.digitChar n]
  else Nat.digitChar (n % 10) :: natDigitsRev (n / 10)
  termination_by n
  decreasing_by
    exact Nat.div_lt_self (by omega) (by omega)

/-- Decimal rendering of a natural number (str(i) in Python). -/
def natToDecimal (n : Nat) : String := ⟨(natDigitsRev n).reverse⟩

/-- The generated name of the i-th registered expression. -/
def mkName (i : Nat) : String := "ibis_" ++ natToDecimal i

/-- The global mutable state of the module: the counter _i and the dict
_name_to_ibis. -/
structure GlobalState where
  i : Nat
  name_to_ibis : IbisMap
  deriving DecidableEq, Repr

/-- A pandas DataFrame as the module uses it: column names with dtypes,
rows, and the dynamically attached ibis attribute. -/
structure DataFrame where
  schema : List (String × String)
  rows : List Row
  ibis : Option Expr
  deriving DecidableEq, Repr

/-- ibis_transformation from the source: generate the name ibis_<i> from
the current counter, bump the counter, store the attached expression
under the name, and return the data dict with just that name.  A frame
without the attribute raises AttributeError. -/
def ibis_transformation (data : DataFrame) (st : GlobalState) :
    Except Err (List (String × String)) × GlobalState :=
  match data.ibis with
  | none => (.error .attrError, st)
  | some e =>
    let name := mkName st.i
    (.ok [("name", name)], ⟨st.i + 1, dictInsert name e st.name_to_ibis⟩)

/-- Every key of the registry was generated from an earlier counter
value.  This is the invariant the module maintains: only
ibis_transformation inserts, always under the fresh name. -/
def goodState (st : GlobalState) : Prop :=
  ∀ k ∈ st.name_to_ibis.map Prod.fst, ∃ j, j < st.i ∧ k = mkName j

/-! ### The monkeypatched chart constructor -/

/-- empty from the source: a zero-row frame whose columns and dtypes come
from the schema of the expression.  A GroupedTable has no schema. -/
def empty (e : Expr) : Except Err DataFrame :=
  match e with
  | .tbl b => .ok ⟨b.schema, [], none⟩
  | .grouped _ _ => .error .attrError

/-- The data argument handed to the chart constructor. -/
inductive ChartData where
  | noData
  | ibisData (e : Expr)
  | otherData (o : String)
  deriving DecidableEq, Repr

/-- What reaches the original constructor after the patch ran. -/
inductive InitArg where
  | noArg
  | dfArg (d : DataFrame)
  | otherArg (o : String)
  deriving DecidableEq, Repr

/-- The unchanged forwarding of a non-Ibis data argument. -/
def forwardArg : ChartData → InitArg
  | .noData => .noArg
  | .ibisData _ => .noArg
  | .otherData o => .otherArg o

/-- updated_chart_init from monkeypatch_altair: an Ibis expression is
replaced by the empty frame carrying the expression as its ibis
attribute; anything else is forwarded unchanged, together with the
remaining positional and keyword arguments. -/
def updated_chart_init (data : ChartData) (args : List String) :
    Except Err (InitArg × List String) :=
  match data with
  | .ibisData e =>
    match empty e with
    | .error er => .error er
    | .ok d => .ok (.dfArg { d with ibis := some e }, args)
  | .noData => .ok (.noArg, args)
  | .otherData o => .ok (.otherArg o, args)

/-! ### The renderer -/

/-- The placeholder vega spec EMPTY_SPEC from the source. -/
def EMPTY_SPEC : Spec := ⟨none, some (.values []), none, [("mark", "bar")]⟩

/-- The comm target COMM_ID from the source. -/
def COMM_ID : String := "extract-vega-lite"

/-- The display objects the renderer can show. -/
inductive DisplayObj where
  | vegaLite (s : Spec)
  | vegaLiteOmniSci (s : Spec) (conn : String)
  | compatJSONSpec (s : Spec)
  | compatJSONDict (kv : List (String × String))
  | code (text : String)
  deriving DecidableEq, Repr

/-- Deterministic stand-in for ibis compilation to SQL (expr.compile()). -/
def Expr.compileSQL (e : Expr) : String := reprStr e

/-- The mimetype under which a display object renders. -/
def mimeOf : DisplayObj → String
  | .vegaLite _ => "application/vnd.vegalite.v2+json"
  | .vegaLiteOmniSci _ _ => "application/vnd.omnisci.vega+json"
  | .compatJSONSpec _ => "application/json"
  | .compatJSONDict _ => "application/json"
  | .code _ => "text/plain"

/-- The mimebundle of a display object (display_formatter.format). -/
def formatOf (d : DisplayObj) : List (String × String) := [(mimeOf d, reprStr d)]

/-- to_display of ibis_renderer: optionally push the transforms down with
update_spec (mutating the spec), then build the display object of the
requested type; vl executes the expression and stores the transformed
data, vl-omnisci and sql compile it. -/
def toDisplay (type : String) (compile : Bool) (e : Expr) (conn : String) (s : Spec) :
    Except Err DisplayObj :=
  match (if compile then update_spec e s else (s, .ok e)) with
  | (_, .error er) => .error er
  | (s', .ok e') =>
    if type = "vl" then
      match e'.executeE with
      | .error er => .error er
      | .ok tb => .ok (.vegaLite (set_data s' (.url tb)))
    else if type = "vl-omnisci" then
      .ok (.vegaLiteOmniSci (set_data s' (.sql e'.compileSQL)) conn)
    else if type = "json" then
      .ok (.compatJSONSpec s')
    else
      .ok (.code e'.compileSQL)

/-- The placeholder display object per output type. -/
def placeholderObj (type : String) (conn : String) : DisplayObj :=
  if type = "vl" then .vegaLite EMPTY_SPEC
  else if type = "vl-omnisci" then .vegaLiteOmniSci EMPTY_SPEC conn
  else if type = "json" then .compatJSONDict [("_", "Waiting for transformed spec...")]
  else .code "Waiting for transformed spec..."

/-- Observable actions of the renderer: a display with a display id, the
opening of a comm carrying the spec, and an in-place update of an earlier
display. -/
inductive REvent where
  | displayed (id : Nat) (d : DisplayObj)
  | commOpened (target : String) (payload : Spec)
  | updatedDisplay (id : Nat) (d : DisplayObj)

/-- What one call of ibis_renderer produces: its event trace, the
returned mimebundle, and the callback registered on the comm (present
only on the extract path). -/
structure RenderResult where
  events : List REvent
  bundle : List (String × String)
  callback : Option (Spec → Except Err REvent)

/-- ibis_renderer from the source: retrieve the expression of the spec
(RuntimeError when it is not registered), check the type string, and
either display a placeholder, open the comm with the spec and return the
empty text bundle (extract path, content arriving later through the
callback), or format the display object synchronously. -/
def ibis_renderer (s : Spec) (type : String) (extract compile : Bool) (st : IbisMap) :
    Except Err RenderResult × IbisMap :=
  match retrieve_expr s st with
  | (.error er, m') => (.error er, m')
  | (.ok e, m') =>
    if type = "vl" ∨ type = "vl-omnisci" ∨ type = "json" ∨ type = "sql" then
      if extract then
        (.ok { events := [.displayed 0 (placeholderObj type (get_client e)),
                          .commOpened COMM_ID s],
               bundle := [("text/plain", "")],
               callback := some (fun s' =>
                 (toDisplay type compile e (get_client e) s').map (.updatedDisplay 0 ·)) },
         m')
      else
        match toDisplay type compile e (get_client e) s with
        | .error er => (.error er, m')
        | .ok d => (.ok { events := [], bundle := formatOf d, callback := none }, m')
    else (.error .assertionError, m')

/-! ### Client-side transform semantics, modelled from the claim text

For the refinement claim the following definitions follow the words of
the specification, not the source: a filter keeps the rows satisfying the
field predicate (range inclusive on both bounds; equal, gt, lt, lte, gte
compare with the corresponding operator), and an aggregate groups the
materialized rows by the groupby fields and evaluates each record op over
the named field (or the whole group when field is absent) into a column
named by as. -/

/-- Client-side truth of a field predicate on one row. -/
def clientHolds (d : FilterDict) (r : Row) : Bool :=
  match d.field with
  | none => false
  | some f =>
    match lookupStr r f with
    | none => false
    | some x =>
      match d.range with
      | some p => decide (p.1 ≤ x) && decide (x ≤ p.2)
      | none =>
      match d.equal with
      | some v => decide (x = v)
      | none =>
      match d.gt with
      | some v => decide (v < x)
      | none =>
      match d.lt with
      | some v => decide (x < v)
      | none =>
      match d.lte with
      | some v => decide (x ≤ v)
      | none =>
      match d.gte with
      | some v => decide (v ≤ x)
      | none => false

/-- Client-side value of one aggregate record over one group of rows. -/
def clientAggValue (grp : List Row) (a : AggRec) : Value :=
  match a.field with
  | some f =>
    let vs := colVals grp f
    if a.op = "count" then (vs.length : Value)
    else if a.op = "sum" then vs.sum
    else if a.op = "mean" then ratMean vs
    else if a.op = "average" then ratMean vs
    else if a.op = "min" then listMin vs
    else if a.op = "max" then listMax vs
    else 0
  | none => if a.op = "count" then (grp.length : Value) else 0

/-- Client-side aggregate transform applied to materialized data. -/
def vlClientAggregate (data : Table) (g : List String) (aggs : List AggRec) : Table :=
  ⟨g ++ aggs.map (fun a => a.as),
   (if g.isEmpty then [([], data.rows)] else groupRows g data.rows).map (fun p =>
     (g.zip p.1).map (fun q => (q.1, q.2.getD 0)) ++
       aggs.map (fun a => (a.as, clientAggValue p.2 a)))⟩

/-- Client-side application of one transform entry to materialized data:
an aggregate entry groups and aggregates, a filter entry keeps the
matching rows, anything else leaves the data alone. -/
def vlClientTransform (data : Table) (t : Transform) : Table :=
  match t.aggregate with
  | some aggs => vlClientAggregate data (t.groupby.getD []) aggs
  | none =>
    match t.filter with
    | some d => ⟨data.cols, data.rows.filter (clientHolds d)⟩
    | none => data

/-! ### Lemmas about the generated names -/

/-- Numeric value of a decimal digit character. -/
def digitVal (c : Char) : Nat := c.toNat - 48

theorem digitVal_digitChar {n : Nat} (h : n < 10) : digitVal (Nat.digitChar n) = n := by
  interval_cases n <;> rfl

/-- Decode a least-significant-first digit list. -/
def decodeRev : List Char → Nat
  | [] => 0
  | c :: cs => digitVal c + 10 * decodeRev cs

theorem decodeRev_natDigitsRev : ∀ n, decodeRev (natDigitsRev n) = n := by
  intro n
  induction n using Nat.strong_induction_on with
  | _ n ih =>
    rw [natDigitsRev]
    split
    · next h => simp [decodeRev, digitVal_digitChar h]
    · next h =>
      have h10 : n / 10 < n := Nat.div_lt_self (by omega) (by omega)
      have hm : n % 10 < 10 := Nat.mod_lt n (by omega)
      simp [decodeRev, digitVal_digitChar hm, ih (n / 10) h10]
      omega

theorem natToDecimal_injective {m n : Nat} (h : natToDecimal m = natToDecimal n) : m = n := by
  have hd : (natDigitsRev m).reverse = (natDigitsRev n).reverse := congrArg String.data h
  have hd' : natDigitsRev m = natDigitsRev n := List.reverse_injective hd
  have := decodeRev_natDigitsRev m
  rw [hd', decodeRev_natDigitsRev n] at this
  omega

theorem mkName_injective {m n : Nat} (h : mkName m = mkName n) : m = n := by
  apply natToDecimal_injective
  have hd : ("ibis_".data ++ (natToDecimal m).data) = ("ibis_".data ++ (natToDecimal n).data) := by
    have h2 := congrArg String.data h
    simpa [mkName, String.data_append] using h2
  exact String.ext (List.append_cancel_left hd)

/-! ### Lemmas about the registry -/

theorem dictInsert_fresh (k : String) (v : Expr) :
    ∀ m : IbisMap, k ∉ m.map Prod.fst → dictInsert k v m = m ++ [(k, v)] := by
  intro m
  induction m with
  | nil => intro _; rfl
  | cons p rest ih =>
    intro hk
    obtain ⟨k', v'⟩ := p
    simp only [List.map_cons, List.mem_cons] at hk
    push_neg at hk
    simp only [dictInsert, if_neg (Ne.symm hk.1), List.cons_append, ih hk.2]

theorem popKey_none_of_not_mem (k : String) :
    ∀ m : IbisMap, k ∉ m.map Prod.fst → popKey k m = none := by
  intro m
  induction m with
  | nil => intro _; rfl
  | cons p rest ih =>
    intro hk
    obtain ⟨k', v'⟩ := p
    simp only [List.map_cons, List.mem_cons] at hk
    push_neg at hk
    simp only [popKey, if_neg (Ne.symm hk.1), ih hk.2, Option.map_none']

theorem popKey_not_mem_of_nodup (k : String) :
    ∀ m m' : IbisMap, ∀ e : Expr, (m.map Prod.fst).Nodup →
      popKey k m = some (e, m') → k ∉ m'.map Prod.fst := by
  intro m
  induction m with
  | nil => intro m' e _ hp; simp [popKey] at hp
  | cons p rest ih =>
    intro m' e hnd hp
    obtain ⟨k', v'⟩ := p
    simp only [List.map_cons, List.nodup_cons] at hnd
    simp only [popKey] at hp
    by_cases hk : k' = k
    · subst hk
      rw [if_pos rfl] at hp
      simp only [Option.some.injEq, Prod.mk.injEq] at hp
      obtain ⟨-, rfl⟩ := hp
      exact hnd.1
    · rw [if_neg hk] at hp
      cases hrec : popKey k rest with
      | none => rw [hrec] at hp; simp at hp
      | some q =>
        obtain ⟨e', m''⟩ := q
        rw [hrec] at hp
        simp only [Option.map_some', Option.some.injEq, Prod.mk.injEq] at hp
        obtain ⟨rfl, rfl⟩ := hp
        intro hmem
        simp only [List.map_cons, List.mem_cons] at hmem
        rcases hmem with h1 | h2
        · exact hk h1.symm
        · exact ih m'' e' hnd.2 hrec h2

/-! ### Frame lemmas for update_spec -/

/-- Relation between a transform entry before and after the rewriter ran
over it: the opaque keys are identical and each of the three tracked keys
is either unchanged or removed. -/
def frameRel (t t' : Transform) : Prop :=
  t'.other = t.other ∧
  (t'.groupby = t.groupby ∨ t'.groupby = none) ∧
  (t'.aggregate = t.aggregate ∨ t'.aggregate = none) ∧
  (t'.filter = t.filter ∨ t'.filter = none)

theorem frameRel_refl (t : Transform) : frameRel t t :=
  ⟨rfl, Or.inl rfl, Or.inl rfl, Or.inl rfl⟩

theorem frameRel_trans {a b c : Transform} (h1 : frameRel a b) (h2 : frameRel b c) :
    frameRel a c := by
  obtain ⟨ho1, hg1, ha1, hf1⟩ := h1
  obtain ⟨ho2, hg2, ha2, hf2⟩ := h2
  refine ⟨ho2.trans ho1, ?_, ?_, ?_⟩
  · rcases hg2 with h | h
    · rw [h]; exact hg1
    · exact Or.inr h
  · rcases ha2 with h | h
    · rw [h]; exact ha1
    · exact Or.inr h
  · rcases hf2 with h | h
    · rw [h]; exact hf1
    · exact Or.inr h

theorem processFilter_frame (orig st : Expr) (t : Transform) :
    frameRel t (processFilter orig st t).1 := by
  unfold processFilter
  split
  · exact frameRel_refl t
  · split
    · exact ⟨rfl, Or.inl rfl, Or.inl rfl, Or.inr rfl⟩
    · split
      · exact ⟨rfl, Or.inl rfl, Or.inl rfl, Or.inr rfl⟩
      · split
        · exact ⟨rfl, Or.inl rfl, Or.inl rfl, Or.inr rfl⟩
        · split
          · exact frameRel_refl t
          · split
            · exact ⟨rfl, Or.inl rfl, Or.inl rfl, Or.inr rfl⟩
            · exact ⟨rfl, Or.inl rfl, Or.inl rfl, Or.inr rfl⟩

theorem processAggregate_frame (orig st : Expr) (t : Transform) :
    frameRel t (processAggregate orig st t).1 := by
  have base : frameRel t { t with aggregate := none } :=
    ⟨rfl, Or.inl rfl, Or.inr rfl, Or.inl rfl⟩
  unfold processAggregate
  split
  · exact processFilter_frame orig st t
  · exact frameRel_trans base (processFilter_frame orig st _)
  · split
    · exact base
    · split
      · exact base
      · exact frameRel_trans base (processFilter_frame orig _ _)

theorem processTransform_frame (orig st : Expr) (t : Transform) :
    frameRel t (processTransform orig st t).1 := by
  have base : frameRel t { t with groupby := none } :=
    ⟨rfl, Or.inr rfl, Or.inl rfl, Or.inl rfl⟩
  unfold processTransform
  split
  · exact processAggregate_frame orig st t
  · exact frameRel_trans base (processAggregate_frame orig st _)
  · split
    · exact base
    · split
      · split
        · exact base
        · exact frameRel_trans base (processAggregate_frame orig _ _)
      · exact frameRel_refl t

theorem updateSpecGo_frame (orig : Expr) :
    ∀ (st : Expr) (ts : List Transform),
      List.Forall₂ frameRel ts (updateSpecGo orig st ts).1 := by
  intro st ts
  induction ts generalizing st with
  | nil => exact List.Forall₂.nil
  | cons t ts ih =>
    unfold updateSpecGo
    cases hp : processTransform orig st t with
    | mk t' r =>
      have hrel : frameRel t t' := by
        have h := processTransform_frame orig st t
        rw [hp] at h
        exact h
      cases r with
      | error er =>
        exact List.Forall₂.cons hrel (List.forall₂_same.mpr (fun x _ => frameRel_refl x))
      | ok st' =>
        exact List.Forall₂.cons hrel (ih st')

theorem retrieve_expr_eq (s : Spec) (m : IbisMap) (n : String) (hn : s.refName = some n) :
    retrieve_expr s m =
      match popKey n m with
      | none => (.error .runtimeError, m)
      | some p => (.ok p.1, p.2) := by
  unfold retrieve_expr
  rw [hn]

/-! ### Claim theorems -/

/-- C10: translate_op maps the string average to mean and every other
string, including mean, to itself; consequently translate_op is
idempotent. -/
theorem translate_op_spec :
    translate_op "average" = "mean" ∧
    (∀ s : String, s ≠ "average" → translate_op s = s) ∧
    (∀ s : String, translate_op (translate_op s) = translate_op s) := by
  have hother : ∀ s : String, s ≠ "average" → translate_op s = s := by
    intro s hs
    unfold translate_op lookupStr
    by_cases h1 : ("mean" : String) = s
    · rw [if_pos h1]
      simpa using h1
    · rw [if_neg h1]
      unfold lookupStr
      rw [if_neg (fun h2 => hs h2.symm)]
      rfl
  refine ⟨rfl, hother, ?_⟩
  intro s
  by_cases hs : s = "average"
  · subst hs
    rfl
  · rw [hother s hs]
    exact hother s hs

/-- C10 witness: the theorem applied at the concrete op sum. -/
theorem translate_op_spec_witness : translate_op "sum" = "sum" :=
  translate_op_spec.2.1 "sum" (by decide)

/-- C8: retrieve_expr resolves the data name of the spec (descending into
the spec key when present) and pops the stored expression: when the name
is bound the binding is returned and removed, so a second retrieval of
the same name raises RuntimeError; when the name is unbound it raises
RuntimeError and leaves the registry unchanged. -/
theorem retrieve_expr_pop_semantics (s : Spec) (m : IbisMap) (n : String)
    (hn : s.refName = some n) :
    (∀ (e : Expr) (m' : IbisMap), popKey n m = some (e, m') →
      retrieve_expr s m = (.ok e, m') ∧
      ((m.map Prod.fst).Nodup → retrieve_expr s m' = (.error .runtimeError, m'))) ∧
    (n ∉ m.map Prod.fst → retrieve_expr s m = (.error .runtimeError, m)) := by
  constructor
  · intro e m' hp
    constructor
    · rw [retrieve_expr_eq s m n hn, hp]
    · intro hnd
      have hnot : n ∉ m'.map Prod.fst := popKey_not_mem_of_nodup n m m' e hnd hp
      rw [retrieve_expr_eq s m' n hn, popKey_none_of_not_mem n m' hnot]
  · intro hna
    rw [retrieve_expr_eq s m n hn, popKey_none_of_not_mem n m hna]

/-- C8 witness: the theorem applied at a one-entry registry. -/
theorem retrieve_expr_pop_semantics_witness :
    retrieve_expr ⟨none, some (.named "ibis_0"), none, []⟩
        [("ibis_0", .tbl ⟨[("a", "int64")], [], "c"⟩)] =
      (.ok (.tbl ⟨[("a", "int64")], [], "c"⟩), []) ∧
    retrieve_expr ⟨none, some (.named "ibis_0"), none, []⟩ ([] : IbisMap) =
      (.error .runtimeError, []) := by
  have h := retrieve_expr_pop_semantics ⟨none, some (.named "ibis_0"), none, []⟩
    [("ibis_0", .tbl ⟨[("a", "int64")], [], "c"⟩)] "ibis_0" rfl
  have h2 := retrieve_expr_pop_semantics ⟨none, some (.named "ibis_0"), none, []⟩
    ([] : IbisMap) "ibis_0" rfl
  exact ⟨(h.1 (.tbl ⟨[("a", "int64")], [], "c"⟩) [] rfl).1, h2.2 (by simp)⟩

/-- C5: after the monkeypatch, an Ibis expression passed as the chart
data is replaced by a zero-row dataframe whose columns and dtypes come
from the schema of the expression, carrying the expression as its ibis
attribute; a data argument that is None or not an Ibis expression is
forwarded unchanged together with the other arguments. -/
theorem updated_chart_init_behavior (b : BaseTable) (args : List String) :
    updated_chart_init (.ibisData (.tbl b)) args =
      .ok (.dfArg ⟨b.schema, [], some (.tbl b)⟩, args) ∧
    (∀ d : ChartData, (d = .noData ∨ ∃ o, d = .otherData o) →
      updated_chart_init d args = .ok (forwardArg d, args)) := by
  constructor
  · rfl
  · rintro d (rfl | ⟨o, rfl⟩) <;> rfl

/-- C5 witness: the theorem applied at a concrete one-column table and at
the data argument None. -/
theorem updated_chart_init_behavior_witness :
    updated_chart_init (.ibisData (.tbl ⟨[("a", "int64")], [], "c"⟩)) [] =
      .ok (.dfArg ⟨[("a", "int64")], [], some (.tbl ⟨[("a", "int64")], [], "c"⟩)⟩, []) ∧
    updated_chart_init .noData [] = .ok (.noArg, []) :=
  ⟨(updated_chart_init_behavior ⟨[("a", "int64")], [], "c"⟩ []).1,
   (updated_chart_init_behavior ⟨[("a", "int64")], [], "c"⟩ []).2 .noData (Or.inl rfl)⟩

/-- C4: on a dataframe with an attached expression, ibis_transformation
returns exactly the data dict with the generated name ibis_<i>, bumps the
counter by one, and appends the binding to the registry; under the
invariant that every existing key was generated from an earlier counter
value the generated name is fresh, so no existing entry is overwritten
and the invariant is preserved. -/
theorem ibis_transformation_fresh_name (st : GlobalState) (df : DataFrame) (e : Expr)
    (hib : df.ibis = some e) (hinv : goodState st) :
    ibis_transformation df st =
      (.ok [("name", mkName st.i)],
       ⟨st.i + 1, st.name_to_ibis ++ [(mkName st.i, e)]⟩) ∧
    mkName st.i ∉ st.name_to_ibis.map Prod.fst ∧
    goodState ⟨st.i + 1, st.name_to_ibis ++ [(mkName st.i, e)]⟩ := by
  have hfresh : mkName st.i ∉ st.name_to_ibis.map Prod.fst := by
    intro hmem
    obtain ⟨j, hj, hje⟩ := hinv _ hmem
    exact absurd (mkName_injective hje) (by omega)
  refine ⟨?_, hfresh, ?_⟩
  · unfold ibis_transformation
    rw [hib]
    simp only [dictInsert_fresh _ _ _ hfresh]
  · intro k hk
    simp only [List.map_append, List.mem_append, List.map_cons, List.map_nil,
      List.mem_cons, List.not_mem_nil, or_false] at hk
    rcases hk with h1 | h2
    · obtain ⟨j, hj, hje⟩ := hinv k h1
      refine ⟨j, ?_, hje⟩
      show j < st.i + 1
      omega
    · refine ⟨st.i, ?_, h2⟩
      show st.i < st.i + 1
      omega

/-- C4 witness: the theorem applied at the empty initial state. -/
theorem ibis_transformation_fresh_name_witness :
    ibis_transformation ⟨[("a", "int64")], [], some (.tbl ⟨[("a", "int64")], [], "c"⟩)⟩ ⟨0, []⟩ =
      (.ok [("name", mkName 0)], ⟨1, [(mkName 0, .tbl ⟨[("a", "int64")], [], "c"⟩)]⟩) ∧
    mkName 0 ∉ ([] : IbisMap).map Prod.fst ∧
    goodState ⟨1, [(mkName 0, .tbl ⟨[("a", "int64")], [], "c"⟩)]⟩ := by
  have h := ibis_transformation_fresh_name ⟨0, []⟩
    ⟨[("a", "int64")], [], some (.tbl ⟨[("a", "int64")], [], "c"⟩)⟩
    (.tbl ⟨[("a", "int64")], [], "c"⟩) rfl (by intro k hk; simp at hk)
  simpa using h

/-- C3: a transform whose groupby list names a field that is not a column
of the expression gets its groupby key restored and the whole entry is
skipped: the aggregate and filter keys also stay in the spec and the
expression is returned unchanged. -/
theorem update_spec_skips_transform_on_unknown_groupby_field
    (b : BaseTable) (t : Transform) (g : List String)
    (hg : t.groupby = some g) (hbad : ∃ f ∈ g, f ∉ b.cols)
    (sd : Option DataDict) (ss : Option InnerSpec) (so : List (String × String)) :
    update_spec (.tbl b) ⟨some [t], sd, ss, so⟩ =
      (⟨some [t], sd, ss, so⟩, .ok (.tbl b)) := by
  obtain ⟨f0, hf0, hnot⟩ := hbad
  cases g with
  | nil => simp at hf0
  | cons f fs =>
    have hnall : ¬ ∀ x ∈ f :: fs, x ∈ b.cols := fun hall => hnot (hall f0 hf0)
    have hpt : processTransform (.tbl b) (.tbl b) t = (t, .ok (.tbl b)) := by
      unfold processTransform
      rw [hg]
      simp only [Expr.columnsE]
      rw [if_neg hnall]
    have hgo : updateSpecGo (.tbl b) (.tbl b) [t] = ([t], .ok (.tbl b)) := by
      unfold updateSpecGo
      rw [hpt]
      rfl
    have hne : t.isEmpty = false := by simp [Transform.isEmpty, hg]
    unfold update_spec
    rw [show ((⟨some [t], sd, ss, so⟩ : Spec).transform.getD []) = [t] from rfl, hgo]
    simp [hne]

/-- C3 witness: the theorem applied at a concrete table and transform. -/
theorem update_spec_skips_transform_on_unknown_groupby_field_witness :
    update_spec (.tbl ⟨[("k", "int64")], [], "c"⟩)
        ⟨some [⟨some ["z"], some [⟨"count", none, "c1"⟩], none, []⟩], none, none, []⟩ =
      (⟨some [⟨some ["z"], some [⟨"count", none, "c1"⟩], none, []⟩], none, none, []⟩,
       .ok (.tbl ⟨[("k", "int64")], [], "c"⟩)) :=
  update_spec_skips_transform_on_unknown_groupby_field
    ⟨[("k", "int64")], [], "c"⟩ ⟨some ["z"], some [⟨"count", none, "c1"⟩], none, []⟩
    ["z"] rfl ⟨"z", by decide, by decide⟩ none none []

/-- C2 counterexample: on a filter transform without a field key (here a
selection filter) update_spec raises KeyError rather than leaving the
transform client-side, and the popped filter is not restored. -/
theorem update_spec_raises_on_fieldless_filter :
    update_spec (.tbl ⟨[("a", "int64")], [], "c"⟩)
        ⟨some [⟨none, none,
                some ⟨none, none, none, none, none, none, none, [("selection", "s")]⟩, []⟩],
         none, none, []⟩ =
      (⟨some [⟨none, none, none, []⟩], none, none, []⟩, .error .keyError) := by
  rfl

/-- C2 (amended): the give-up fallback applies to filter dicts that do
carry a field key: when the field names a column of the expression but
none of range, equal, gt, lt, lte, gte is present, update_spec puts the
filter back, leaves the spec unchanged and returns the expression
untouched by that filter.  A filter without a field key instead raises
KeyError. -/
theorem update_spec_fallback_filter_with_field
    (b : BaseTable) (d : FilterDict) (f : String) (tother : List (String × String))
    (hf : d.field = some f) (hcol : f ∈ b.cols)
    (hr : d.range = none) (heq : d.equal = none) (hgt : d.gt = none)
    (hlt : d.lt = none) (hlte : d.lte = none) (hgte : d.gte = none)
    (sd : Option DataDict) (ss : Option InnerSpec) (so : List (String × String)) :
    update_spec (.tbl b) ⟨some [⟨none, none, some d, tother⟩], sd, ss, so⟩ =
      (⟨some [⟨none, none, some d, tother⟩], sd, ss, so⟩, .ok (.tbl b)) := by
  have hem : d.isEmpty = false := by simp [FilterDict.isEmpty, hf]
  have hpf : processFilter (.tbl b) (.tbl b) ⟨none, none, some d, tother⟩ =
      (⟨none, none, some d, tother⟩, .ok (.tbl b)) := by
    simp only [processFilter, hem, Bool.false_eq_true, if_false, hf, Expr.getColE,
      if_pos hcol, filterPredsOf, hr, heq, hgt, hlt, hlte, hgte]
  have hpt : processTransform (.tbl b) (.tbl b) ⟨none, none, some d, tother⟩ =
      (⟨none, none, some d, tother⟩, .ok (.tbl b)) := hpf
  have hgo : updateSpecGo (.tbl b) (.tbl b) [⟨none, none, some d, tother⟩] =
      ([⟨none, none, some d, tother⟩], .ok (.tbl b)) := by
    unfold updateSpecGo
    rw [hpt]
    rfl
  have hne : Transform.isEmpty ⟨none, none, some d, tother⟩ = false := by
    simp [Transform.isEmpty]
  unfold update_spec
  rw [show ((⟨some [⟨none, none, some d, tother⟩], sd, ss, so⟩ : Spec).transform.getD []) =
        [⟨none, none, some d, tother⟩] from rfl, hgo]
  simp [hne]

/-- C2 (amended) witness: the theorem applied at a concrete filter dict
carrying only a selection key next to its field. -/
theorem update_spec_fallback_filter_with_field_witness :
    update_spec (.tbl ⟨[("a", "int64")], [], "c"⟩)
        ⟨some [⟨none, none,
                some ⟨some "a", none, none, none, none, none, none, [("oneOf", "x")]⟩, []⟩],
         none, none, []⟩ =
      (⟨some [⟨none, none,
               some ⟨some "a", none, none, none, none, none, none, [("oneOf", "x")]⟩, []⟩],
        none, none, []⟩, .ok (.tbl ⟨[("a", "int64")], [], "c"⟩)) :=
  update_spec_fallback_filter_with_field ⟨[("a", "int64")], [], "c"⟩
    ⟨some "a", none, none, none, none, none, none, [("oneOf", "x")]⟩ "a" []
    rfl (by decide) rfl rfl rfl rfl rfl rfl none none []

theorem update_spec_error_eq (e : Expr) (s : Spec) (ts : List Transform) (er : Err)
    (hgo : updateSpecGo e e (s.transform.getD []) = (ts, .error er)) :
    update_spec e s = ({ s with transform := some ts }, .error er) := by
  unfold update_spec
  rw [hgo]

theorem update_spec_ok_eq (e : Expr) (s : Spec) (ts : List Transform) (st : Expr)
    (hgo : updateSpecGo e e (s.transform.getD []) = (ts, .ok st)) :
    update_spec e s =
      (if (ts.filter (fun t => !t.isEmpty)).isEmpty then
        ({ s with transform := none }, .ok st)
      else
        ({ s with transform := some (ts.filter (fun t => !t.isEmpty)) }, .ok st)) := by
  unfold update_spec
  rw [hgo]

/-- C9: after a successful update_spec the spec carries a transform key
iff some processed entry kept at least one key: emptied entries are
filtered out and the key itself is deleted when the filtered list is
empty, so a spec whose transforms are all fully rewritten ends without a
transform key. -/
theorem update_spec_transform_key_iff_nonempty (e : Expr) (s : Spec) (ex : Expr)
    (h : (update_spec e s).2 = .ok ex) :
    ((update_spec e s).1.transform.isSome ↔
      ∃ t' ∈ (updateSpecGo e e (s.transform.getD [])).1, t'.isEmpty = false) ∧
    (update_spec e s).1.transform.getD [] =
      (updateSpecGo e e (s.transform.getD [])).1.filter (fun t => !t.isEmpty) := by
  cases hgo : updateSpecGo e e (s.transform.getD []) with
  | mk ts r =>
    cases r with
    | error er =>
      rw [update_spec_error_eq e s ts er hgo] at h
      simp at h
    | ok st =>
      rw [update_spec_ok_eq e s ts st hgo]
      by_cases hpr : (ts.filter (fun t => !t.isEmpty)).isEmpty
      · rw [if_pos hpr]
        rw [List.isEmpty_iff] at hpr
        have hall : ∀ t' ∈ ts, t'.isEmpty = true := by
          intro t' ht'
          by_contra hne
          have hmem : t' ∈ ts.filter (fun t => !t.isEmpty) :=
            List.mem_filter.mpr ⟨ht', by simp [Bool.not_eq_true] at hne ⊢; exact hne⟩
          rw [hpr] at hmem
          simp at hmem
        constructor
        · simp only [Option.isSome_none, Bool.false_eq_true, false_iff, not_exists]
          intro t' hcon
          rcases hcon with ⟨ht', hne⟩
          rw [hall t' ht'] at hne
          simp at hne
        · simp [hpr]
      · rw [if_neg hpr]
        rw [List.isEmpty_iff] at hpr
        constructor
        · simp only [Option.isSome_some, true_iff]
          obtain ⟨t', ht'⟩ := List.exists_mem_of_ne_nil _ hpr
          have hm := List.mem_filter.mp ht'
          exact ⟨t', hm.1, by simpa using hm.2⟩
        · simp

/-- C9 witness: the theorem applied at a spec without transforms. -/
theorem update_spec_transform_key_iff_nonempty_witness :
    ((update_spec (.tbl ⟨[], [], "c"⟩) ⟨none, none, none, []⟩).1.transform.isSome ↔
      ∃ t' ∈ (updateSpecGo (.tbl ⟨[], [], "c"⟩) (.tbl ⟨[], [], "c"⟩)
          ((⟨none, none, none, []⟩ : Spec).transform.getD [])).1, t'.isEmpty = false) ∧
    (update_spec (.tbl ⟨[], [], "c"⟩) ⟨none, none, none, []⟩).1.transform.getD [] =
      (updateSpecGo (.tbl ⟨[], [], "c"⟩) (.tbl ⟨[], [], "c"⟩)
        ((⟨none, none, none, []⟩ : Spec).transform.getD [])).1.filter (fun t => !t.isEmpty) :=
  update_spec_transform_key_iff_nonempty (.tbl ⟨[], [], "c"⟩) ⟨none, none, none, []⟩
    (.tbl ⟨[], [], "c"⟩) rfl

/-- C6: update_spec touches only the groupby, aggregate and filter keys
of the transform entries: the data and spec keys and all remaining keys
of the spec are unchanged, every processed entry keeps its other keys
while each tracked key either keeps its value or is removed, and the
transform key itself only loses the entries that were emptied (on an
exception the mutated entry list is left in place). -/
theorem update_spec_frame_effect (e : Expr) (s : Spec) :
    (update_spec e s).1.data = s.data ∧
    (update_spec e s).1.sub = s.sub ∧
    (update_spec e s).1.other = s.other ∧
    List.Forall₂ frameRel (s.transform.getD []) (updateSpecGo e e (s.transform.getD [])).1 ∧
    (∀ er, (update_spec e s).2 = .error er →
      (update_spec e s).1.transform = some (updateSpecGo e e (s.transform.getD [])).1) ∧
    (∀ ex, (update_spec e s).2 = .ok ex →
      (update_spec e s).1.transform.getD [] =
        (updateSpecGo e e (s.transform.getD [])).1.filter (fun t => !t.isEmpty)) := by
  have hfr := updateSpecGo_frame e e (s.transform.getD [])
  cases hgo : updateSpecGo e e (s.transform.getD []) with
  | mk ts r =>
    cases r with
    | error er =>
      rw [hgo] at hfr
      rw [update_spec_error_eq e s ts er hgo]
      exact ⟨rfl, rfl, rfl, hfr, fun _ _ => rfl, fun ex hex => by simp at hex⟩
    | ok st =>
      rw [hgo] at hfr
      rw [update_spec_ok_eq e s ts st hgo]
      by_cases hpr : (ts.filter (fun t => !t.isEmpty)).isEmpty
      · rw [if_pos hpr]
        rw [List.isEmpty_iff] at hpr
        exact ⟨rfl, rfl, rfl, hfr, fun er her => by simp at her,
          fun ex hex => by simp [hpr]⟩
      · rw [if_neg hpr]
        exact ⟨rfl, rfl, rfl, hfr, fun er her => by simp at her, fun ex hex => rfl⟩

/-- C6 witness: the theorem applied at a concrete spec whose only
transform is a filter that the rewriter pushes down. -/
theorem update_spec_frame_effect_witness :
    (update_spec (.tbl ⟨[("a", "int64")], [], "c"⟩)
        ⟨some [⟨none, none,
                some ⟨some "a", none, some 3, none, none, none, none, []⟩, []⟩],
         some (.named "n"), none, [("mark", "bar")]⟩).1.data = some (.named "n") ∧
    (update_spec (.tbl ⟨[("a", "int64")], [], "c"⟩)
        ⟨some [⟨none, none,
                some ⟨some "a", none, some 3, none, none, none, none, []⟩, []⟩],
         some (.named "n"), none, [("mark", "bar")]⟩).1.other = [("mark", "bar")] ∧
    (update_spec (.tbl ⟨[("a", "int64")], [], "c"⟩)
        ⟨some [⟨none, none,
                some ⟨some "a", none, some 3, none, none, none, none, []⟩, []⟩],
         some (.named "n"), none, [("mark", "bar")]⟩).1.transform.getD [] =
      (updateSpecGo (.tbl ⟨[("a", "int64")], [], "c"⟩) (.tbl ⟨[("a", "int64")], [], "c"⟩)
          ((⟨some [⟨none, none,
                    some ⟨some "a", none, some 3, none, none, none, none, []⟩, []⟩],
             some (.named "n"), none, [("mark", "bar")]⟩ : Spec).transform.getD [])).1.filter
        (fun t => !t.isEmpty) := by
  have h := update_spec_frame_effect (.tbl ⟨[("a", "int64")], [], "c"⟩)
    ⟨some [⟨none, none, some ⟨some "a", none, some 3, none, none, none, none, []⟩, []⟩],
     some (.named "n"), none, [("mark", "bar")]⟩
  exact ⟨h.1, h.2.2.1, h.2.2.2.2.2 (.tbl ⟨[("a", "int64")], [], "c"⟩) rfl⟩

/-! ### Supported transform shapes for the refinement claim -/

/-- The aggregate records the rewriter supports, as the claim enumerates
them: a record whose field names a column together with one of the six
resolvable op strings, or a fieldless count. -/
def SupportedAggRec (b : BaseTable) (a : AggRec) : Prop :=
  (∃ f, a.field = some f ∧ f ∈ b.cols ∧
    (a.op = "count" ∨ a.op = "sum" ∨ a.op = "mean" ∨ a.op = "average" ∨
     a.op = "min" ∨ a.op = "max")) ∨
  (a.field = none ∧ a.op = "count")

/-- A field filter dict with exactly one of the six supported predicate
keys, the field naming a column. -/
def SupportedFilter (b : BaseTable) (d : FilterDict) : Prop :=
  ∃ f, d.field = some f ∧ f ∈ b.cols ∧
    (((∃ p, d.range = some p) ∧ d.equal = none ∧ d.gt = none ∧ d.lt = none ∧
        d.lte = none ∧ d.gte = none) ∨
     (d.range = none ∧ (∃ v, d.equal = some v) ∧ d.gt = none ∧ d.lt = none ∧
        d.lte = none ∧ d.gte = none) ∨
     (d.range = none ∧ d.equal = none ∧ (∃ v, d.gt = some v) ∧ d.lt = none ∧
        d.lte = none ∧ d.gte = none) ∨
     (d.range = none ∧ d.equal = none ∧ d.gt = none ∧ (∃ v, d.lt = some v) ∧
        d.lte = none ∧ d.gte = none) ∨
     (d.range = none ∧ d.equal = none ∧ d.gt = none ∧ d.lt = none ∧
        (∃ v, d.lte = some v) ∧ d.gte = none) ∨
     (d.range = none ∧ d.equal = none ∧ d.gt = none ∧ d.lt = none ∧
        d.lte = none ∧ (∃ v, d.gte = some v)))

/-- A Vega-Lite transform entry of a supported shape: an aggregate entry
(nonempty aggregate list of supported records, groupby fields all being
columns, no filter key) or a field-filter entry of a supported shape. -/
def SupportedTransform (b : BaseTable) (t : Transform) : Prop :=
  t.other = [] ∧
  ((∃ aggs, t.aggregate = some aggs ∧ aggs ≠ [] ∧ (∀ a ∈ aggs, SupportedAggRec b a) ∧
      t.filter = none ∧ (∀ g, t.groupby = some g → ∀ f ∈ g, f ∈ b.cols)) ∨
   (t.groupby = none ∧ t.aggregate = none ∧ ∃ d, t.filter = some d ∧ SupportedFilter b d))

/-! ### Refinement lemmas -/

theorem map_eq_of_forall₂ {α β γ : Type} {R : α → β → Prop} (f : β → γ) (g : α → γ)
    {l₁ : List α} {l₂ : List β} (h : List.Forall₂ R l₁ l₂)
    (hfg : ∀ a b, R a b → f b = g a) : l₂.map f = l₁.map g := by
  induction h with
  | nil => rfl
  | cons hr _ ih => simp only [List.map_cons, hfg _ _ hr, ih]

theorem resolveAgg_of_supported (b : BaseTable) (a : AggRec) (h : SupportedAggRec b a) :
    ∃ m, vl_aggregate_to_grouping_expr (.tbl b) a = .ok m ∧
      m.mname = a.as ∧ Metric.okFor b m ∧
      ∀ grp, evalMetric grp m = clientAggValue grp a := by
  rcases h with ⟨f, hf, hcol, hop | hop | hop | hop | hop | hop⟩ | ⟨hf, hop⟩
  · refine ⟨.colAgg a.as .count f, ?_, rfl, hcol, ?_⟩
    · simp [vl_aggregate_to_grouping_expr, hf, hop, translate_op, lookupStr,
        Expr.getColE, hcol, colAggOfString]
    · intro grp
      simp [evalMetric, evalAggOp, clientAggValue, hf, hop]
  · refine ⟨.colAgg a.as .sum f, ?_, rfl, hcol, ?_⟩
    · simp [vl_aggregate_to_grouping_expr, hf, hop, translate_op, lookupStr,
        Expr.getColE, hcol, colAggOfString]
    · intro grp
      simp [evalMetric, evalAggOp, clientAggValue, hf, hop]
  · refine ⟨.colAgg a.as .mean f, ?_, rfl, hcol, ?_⟩
    · simp [vl_aggregate_to_grouping_expr, hf, hop, translate_op, lookupStr,
        Expr.getColE, hcol, colAggOfString]
    · intro grp
      simp [evalMetric, evalAggOp, clientAggValue, hf, hop]
  · refine ⟨.colAgg a.as .mean f, ?_, rfl, hcol, ?_⟩
    · simp [vl_aggregate_to_grouping_expr, hf, hop, translate_op, lookupStr,
        Expr.getColE, hcol, colAggOfString]
    · intro grp
      simp [evalMetric, evalAggOp, clientAggValue, hf, hop]
  · refine ⟨.colAgg a.as .min f, ?_, rfl, hcol, ?_⟩
    · simp [vl_aggregate_to_grouping_expr, hf, hop, translate_op, lookupStr,
        Expr.getColE, hcol, colAggOfString]
    · intro grp
      simp [evalMetric, evalAggOp, clientAggValue, hf, hop]
  · refine ⟨.colAgg a.as .max f, ?_, rfl, hcol, ?_⟩
    · simp [vl_aggregate_to_grouping_expr, hf, hop, translate_op, lookupStr,
        Expr.getColE, hcol, colAggOfString]
    · intro grp
      simp [evalMetric, evalAggOp, clientAggValue, hf, hop]
  · refine ⟨.countAll a.as, ?_, rfl, trivial, ?_⟩
    · simp [vl_aggregate_to_grouping_expr, hf, hop, translate_op, lookupStr]
    · intro grp
      simp [evalMetric, clientAggValue, hf, hop]

theorem mapExcept_resolveAgg (b : BaseTable) :
    ∀ aggs : List AggRec, (∀ a ∈ aggs, SupportedAggRec b a) →
      ∃ ms, mapExcept (vl_aggregate_to_grouping_expr (.tbl b)) aggs = .ok ms ∧
        (∀ m ∈ ms, Metric.okFor b m) ∧
        List.Forall₂ (fun a m => Metric.mname m = a.as ∧
          ∀ grp, evalMetric grp m = clientAggValue grp a) aggs ms := by
  intro aggs
  induction aggs with
  | nil => intro _; exact ⟨[], rfl, by simp, .nil⟩
  | cons a rest ih =>
    intro hall
    obtain ⟨m, hm, hname, hok, heval⟩ := resolveAgg_of_supported b a (hall a (by simp))
    obtain ⟨ms, hms, hoks, hrel⟩ := ih (fun x hx => hall x (by simp [hx]))
    refine ⟨m :: ms, ?_, ?_, .cons ⟨hname, heval⟩ hrel⟩
    · simp [mapExcept, hm, hms]
    · intro m' hm'
      rcases List.mem_cons.mp hm' with rfl | hmem
      · exact hok
      · exact hoks m' hmem

theorem aggregate_refines_client (b : BaseTable) (g : List String)
    (aggs : List AggRec) (ms : List Metric)
    (hrel : List.Forall₂ (fun a m => Metric.mname m = a.as ∧
      ∀ grp, evalMetric grp m = clientAggValue grp a) aggs ms) :
    materialTable (aggregateTable b g ms) = vlClientAggregate (materialTable b) g aggs := by
  unfold materialTable aggregateTable vlClientAggregate aggGroups BaseTable.cols
  congr 1
  · dsimp only
    simp only [List.map_append, List.map_map]
    congr 1
    · exact (List.map_congr_left (fun c _ => rfl)).trans (List.map_id g)
    · exact map_eq_of_forall₂ _ _ hrel (fun a m hm => hm.1)
  · dsimp only
    apply List.map_congr_left
    intro p _
    unfold aggRow
    congr 1
    exact map_eq_of_forall₂ _ _ hrel (fun a m hm => by rw [hm.1, hm.2 p.2])

theorem updateSpecGo_single (orig st' : Expr) (t t' : Transform)
    (hpt : processTransform orig orig t = (t', .ok st')) :
    updateSpecGo orig orig [t] = ([t'], .ok st') := by
  unfold updateSpecGo
  rw [hpt]
  rfl

theorem update_spec_single_emptied (e st' : Expr) (t : Transform)
    (sd : Option DataDict) (ss : Option InnerSpec) (so : List (String × String))
    (hgo : updateSpecGo e e [t] = ([⟨none, none, none, []⟩], .ok st')) :
    update_spec e ⟨some [t], sd, ss, so⟩ = (⟨none, sd, ss, so⟩, .ok st') := by
  rw [update_spec_ok_eq e ⟨some [t], sd, ss, so⟩ [⟨none, none, none, []⟩] st' hgo]
  rfl

theorem update_spec_refines_aggregate (b : BaseTable) (gb : Option (List String))
    (aggs : List AggRec) (hgb : ∀ g, gb = some g → ∀ f ∈ g, f ∈ b.cols)
    (hne : aggs ≠ []) (hsup : ∀ a ∈ aggs, SupportedAggRec b a)
    (sd : Option DataDict) (ss : Option InnerSpec) (so : List (String × String)) :
    ∃ e', update_spec (.tbl b) ⟨some [⟨gb, some aggs, none, []⟩], sd, ss, so⟩ =
        (⟨none, sd, ss, so⟩, .ok e') ∧
      e'.executeE = .ok (vlClientTransform (materialTable b) ⟨gb, some aggs, none, []⟩) := by
  obtain ⟨ms, hms, hoks, hrel⟩ := mapExcept_resolveAgg b aggs hsup
  have hok_tbl : Expr.aggregateOp (.tbl b) ms = .ok (.tbl (aggregateTable b [] ms)) := by
    show (if ∀ m ∈ ms, Metric.okFor b m then
            (Except.ok (Expr.tbl (aggregateTable b [] ms)) : Except Err Expr)
          else .error .ibisError) = _
    rw [if_pos hoks]
  have hok_grp : ∀ g, Expr.aggregateOp (.grouped b g) ms =
      .ok (.tbl (aggregateTable b g ms)) := by
    intro g
    show (if ∀ m ∈ ms, Metric.okFor b m then
            (Except.ok (Expr.tbl (aggregateTable b g ms)) : Except Err Expr)
          else .error .ibisError) = _
    rw [if_pos hoks]
  have hpa : ∀ (st : Expr) (keys : List String),
      st.aggregateOp ms = .ok (.tbl (aggregateTable b keys ms)) →
      processAggregate (.tbl b) st ⟨none, some aggs, none, []⟩ =
        (⟨none, none, none, []⟩, .ok (.tbl (aggregateTable b keys ms))) := by
    intro st keys hagg
    cases aggs with
    | nil => exact absurd rfl hne
    | cons a rest =>
      simp only [processAggregate, hms, hagg, processFilter]
  have hexec : ∀ keys : List String,
      Expr.executeE (.tbl (aggregateTable b keys ms)) =
        .ok (vlClientAggregate (materialTable b) keys aggs) := by
    intro keys
    show Except.ok (materialTable (aggregateTable b keys ms)) = _
    rw [aggregate_refines_client b keys aggs ms hrel]
  cases gb with
  | none =>
    have hpt : processTransform (.tbl b) (.tbl b) ⟨none, some aggs, none, []⟩ =
        (⟨none, none, none, []⟩, .ok (.tbl (aggregateTable b [] ms))) :=
      hpa (.tbl b) [] hok_tbl
    refine ⟨.tbl (aggregateTable b [] ms),
      update_spec_single_emptied _ _ _ sd ss so (updateSpecGo_single _ _ _ _ hpt), ?_⟩
    rw [hexec []]
    rfl
  | some g =>
    cases g with
    | nil =>
      have hpt : processTransform (.tbl b) (.tbl b) ⟨some [], some aggs, none, []⟩ =
          (⟨none, none, none, []⟩, .ok (.tbl (aggregateTable b [] ms))) :=
        hpa (.tbl b) [] hok_tbl
      refine ⟨.tbl (aggregateTable b [] ms),
        update_spec_single_emptied _ _ _ sd ss so (updateSpecGo_single _ _ _ _ hpt), ?_⟩
      rw [hexec []]
      rfl
    | cons f fs =>
      have hall : ∀ x ∈ f :: fs, x ∈ b.cols := hgb (f :: fs) rfl
      have hgby : Expr.groupbyOp (.tbl b) (f :: fs) = .ok (.grouped b (f :: fs)) := by
        show (if ∀ x ∈ f :: fs, x ∈ b.cols then
                (Except.ok (Expr.grouped b (f :: fs)) : Except Err Expr)
              else .error .ibisError) = _
        rw [if_pos hall]
      have hpt : processTransform (.tbl b) (.tbl b) ⟨some (f :: fs), some aggs, none, []⟩ =
          (⟨none, none, none, []⟩, .ok (.tbl (aggregateTable b (f :: fs) ms))) := by
        unfold processTransform
        dsimp only [Expr.columnsE]
        rw [if_pos hall, hgby]
        exact hpa (.grouped b (f :: fs)) (f :: fs) (hok_grp (f :: fs))
      refine ⟨.tbl (aggregateTable b (f :: fs) ms),
        update_spec_single_emptied _ _ _ sd ss so (updateSpecGo_single _ _ _ _ hpt), ?_⟩
      rw [hexec (f :: fs)]
      rfl

theorem update_spec_refines_filter (b : BaseTable) (d : FilterDict)
    (hsup : SupportedFilter b d)
    (sd : Option DataDict) (ss : Option InnerSpec) (so : List (String × String)) :
    ∃ e', update_spec (.tbl b) ⟨some [⟨none, none, some d, []⟩], sd, ss, so⟩ =
        (⟨none, sd, ss, so⟩, .ok e') ∧
      e'.executeE = .ok (vlClientTransform (materialTable b) ⟨none, none, some d, []⟩) := by
  obtain ⟨f, hf, hcol, hshape⟩ := hsup
  have hem : d.isEmpty = false := by simp [FilterDict.isEmpty, hf]
  have key : ∃ preds, filterPredsOf d f = some preds ∧
      (∀ p ∈ preds, p.pfield = f) ∧
      (∀ r : Row, preds.all (evalPred r) = clientHolds d r) := by
    rcases hshape with ⟨⟨p, h1⟩, h2, h3, h4, h5, h6⟩ | ⟨h1, ⟨v, h2⟩, h3, h4, h5, h6⟩ |
      ⟨h1, h2, ⟨v, h3⟩, h4, h5, h6⟩ | ⟨h1, h2, h3, ⟨v, h4⟩, h5, h6⟩ |
      ⟨h1, h2, h3, h4, ⟨v, h5⟩, h6⟩ | ⟨h1, h2, h3, h4, h5, ⟨v, h6⟩⟩
    · refine ⟨[.ge f p.1, .le f p.2], by simp [filterPredsOf, h1], ?_, ?_⟩
      · intro q hq
        simp only [List.mem_cons, List.not_mem_nil, or_false] at hq
        rcases hq with rfl | rfl <;> rfl
      · intro r
        cases hl : lookupStr r f <;>
          simp [evalPred, clientHolds, hf, h1, hl]
    · refine ⟨[.eq f v], by simp [filterPredsOf, h1, h2], ?_, ?_⟩
      · intro q hq
        simp only [List.mem_cons, List.not_mem_nil, or_false] at hq
        rcases hq with rfl
        rfl
      · intro r
        cases hl : lookupStr r f <;>
          simp [evalPred, clientHolds, hf, h1, h2, hl]
    · refine ⟨[.gt f v], by simp [filterPredsOf, h1, h2, h3], ?_, ?_⟩
      · intro q hq
        simp only [List.mem_cons, List.not_mem_nil, or_false] at hq
        rcases hq with rfl
        rfl
      · intro r
        cases hl : lookupStr r f <;>
          simp [evalPred, clientHolds, hf, h1, h2, h3, hl]
    · refine ⟨[.lt f v], by simp [filterPredsOf, h1, h2, h3, h4], ?_, ?_⟩
      · intro q hq
        simp only [List.mem_cons, List.not_mem_nil, or_false] at hq
        rcases hq with rfl
        rfl
      · intro r
        cases hl : lookupStr r f <;>
          simp [evalPred, clientHolds, hf, h1, h2, h3, h4, hl]
    · refine ⟨[.le f v], by simp [filterPredsOf, h1, h2, h3, h4, h5], ?_, ?_⟩
      · intro q hq
        simp only [List.mem_cons, List.not_mem_nil, or_false] at hq
        rcases hq with rfl
        rfl
      · intro r
        cases hl : lookupStr r f <;>
          simp [evalPred, clientHolds, hf, h1, h2, h3, h4, h5, hl]
    · refine ⟨[.ge f v], by simp [filterPredsOf, h1, h2, h3, h4, h5, h6], ?_, ?_⟩
      · intro q hq
        simp only [List.mem_cons, List.not_mem_nil, or_false] at hq
        rcases hq with rfl
        rfl
      · intro r
        cases hl : lookupStr r f <;>
          simp [evalPred, clientHolds, hf, h1, h2, h3, h4, h5, h6, hl]
  obtain ⟨preds, hpr, hpf, hagree⟩ := key
  have hfo : Expr.filterOp (.tbl b) preds =
      .ok (.tbl { b with rows := b.rows.filter (fun r => preds.all (evalPred r)) }) := by
    show (if ∀ p ∈ preds, p.pfield ∈ b.cols then
            (Except.ok (Expr.tbl { b with rows := b.rows.filter (fun r => preds.all (evalPred r)) }) : Except Err Expr)
          else .error .ibisError) = _
    rw [if_pos (fun p hp => by rw [hpf p hp]; exact hcol)]
  have hpt : processTransform (.tbl b) (.tbl b) ⟨none, none, some d, []⟩ =
      (⟨none, none, none, []⟩,
       .ok (.tbl { b with rows := b.rows.filter (fun r => preds.all (evalPred r)) })) := by
    show processFilter (.tbl b) (.tbl b) ⟨none, none, some d, []⟩ = _
    simp only [processFilter, hem, Bool.false_eq_true, if_false, hf, Expr.getColE, hcol,
      if_true, hpr, hfo]
  refine ⟨.tbl { b with rows := b.rows.filter (fun r => preds.all (evalPred r)) },
    update_spec_single_emptied _ _ _ sd ss so (updateSpecGo_single _ _ _ _ hpt), ?_⟩
  show Except.ok (materialTable _) = _
  unfold materialTable vlClientTransform BaseTable.cols
  dsimp only
  congr 2
  exact List.filter_congr (fun r _ => hagree r)

/-- C1: for a transform of a supported shape (an aggregate entry whose
records are all supported and whose groupby fields are all columns, or a
field filter with exactly one of range, equal, gt, lt, lte, gte),
update_spec removes the transform from the spec and the returned
expression materializes to exactly the client-side application of that
transform to the materialized data of the original expression: range is
inclusive on both bounds, the comparison predicates use the matching
operators, and each aggregate op is applied per group to the named field
(or the whole group for a fieldless count) into a column named by as. -/
theorem update_spec_refines_client_transform (b : BaseTable) (t : Transform)
    (ht : SupportedTransform b t)
    (sd : Option DataDict) (ss : Option InnerSpec) (so : List (String × String)) :
    ∃ e', update_spec (.tbl b) ⟨some [t], sd, ss, so⟩ = (⟨none, sd, ss, so⟩, .ok e') ∧
      e'.executeE = .ok (vlClientTransform (materialTable b) t) := by
  obtain ⟨hother, hsh⟩ := ht
  obtain ⟨gb, ag, fl, oth⟩ := t
  dsimp only at hother
  subst hother
  rcases hsh with ⟨aggs, hag, hne, hsup, hfl, hgb⟩ | ⟨hgbn, hagn, d, hfl, hsupf⟩
  · dsimp only at hag hfl hgb
    subst hag
    subst hfl
    exact update_spec_refines_aggregate b gb aggs hgb hne hsup sd ss so
  · dsimp only at hgbn hagn hfl
    subst hgbn
    subst hagn
    subst hfl
    exact update_spec_refines_filter b d hsupf sd ss so

/-- C1 witness: the theorem applied at a concrete table with a mean
aggregate grouped by one column. -/
theorem update_spec_refines_client_transform_witness :
    ∃ e', update_spec
        (.tbl ⟨[("k", "int64"), ("v", "int64")],
               [[("k", 1), ("v", 10)], [("k", 1), ("v", 20)], [("k", 2), ("v", 5)]], "c"⟩)
        ⟨some [⟨some ["k"], some [⟨"mean", some "v", "m"⟩], none, []⟩], none, none, []⟩ =
        (⟨none, none, none, []⟩, .ok e') ∧
      e'.executeE = .ok (vlClientTransform
        (materialTable ⟨[("k", "int64"), ("v", "int64")],
          [[("k", 1), ("v", 10)], [("k", 1), ("v", 20)], [("k", 2), ("v", 5)]], "c"⟩)
        ⟨some ["k"], some [⟨"mean", some "v", "m"⟩], none, []⟩) := by
  apply update_spec_refines_client_transform
  refine ⟨rfl, Or.inl ⟨[⟨"mean", some "v", "m"⟩], rfl, by simp, ?_, rfl, ?_⟩⟩
  · intro a ha
    simp only [List.mem_cons, List.not_mem_nil, or_false] at ha
    subst ha
    exact Or.inl ⟨"v", rfl, by decide, Or.inr (Or.inr (Or.inl rfl))⟩
  · intro g hg
    cases hg
    intro x hx
    simp only [List.mem_cons, List.not_mem_nil, or_false] at hx
    subst hx
    decide

/-- C7: with extract set, the renderer returns the placeholder mimebundle
with the empty text/plain entry immediately after displaying the
type-specific placeholder (under a display id) and opening the comm that
registers the message callback; the actual chart content is produced only
later, by the registered callback, which maps a spec sent back over the
comm to an in-place update (same display id) showing the rendered chart. -/
theorem ibis_renderer_extract_async (s : Spec) (type : String) (compile : Bool)
    (st m' : IbisMap) (e : Expr)
    (hty : type = "vl" ∨ type = "vl-omnisci" ∨ type = "json" ∨ type = "sql")
    (hre : retrieve_expr s st = (.ok e, m')) :
    ∃ res : RenderResult,
      ibis_renderer s type true compile st = (.ok res, m') ∧
      res.bundle = [("text/plain", "")] ∧
      res.events = [.displayed 0 (placeholderObj type (get_client e)),
                    .commOpened COMM_ID s] ∧
      ∃ cb, res.callback = some cb ∧
        ∀ s' : Spec, cb s' =
          (toDisplay type compile e (get_client e) s').map (REvent.updatedDisplay 0) := by
  unfold ibis_renderer
  rw [hre]
  dsimp only
  rw [if_pos hty]
  exact ⟨_, rfl, rfl, rfl, _, rfl, fun s' => rfl⟩

/-- C7 witness: the theorem applied at a registered expression and the
json output type. -/
theorem ibis_renderer_extract_async_witness :
    ∃ res : RenderResult,
      ibis_renderer ⟨none, some (.named "ibis_0"), none, []⟩ "json" true false
          [("ibis_0", .tbl ⟨[("a", "int64")], [], "c"⟩)] =
        (.ok res, []) ∧
      res.bundle = [("text/plain", "")] ∧
      res.events = [.displayed 0 (placeholderObj "json"
                      (get_client (.tbl ⟨[("a", "int64")], [], "c"⟩))),
                    .commOpened COMM_ID ⟨none, some (.named "ibis_0"), none, []⟩] ∧
      ∃ cb, res.callback = some cb ∧
        ∀ s' : Spec, cb s' =
          (toDisplay "json" false (.tbl ⟨[("a", "int64")], [], "c"⟩)
            (get_client (.tbl ⟨[("a", "int64")], [], "c"⟩)) s').map (REvent.updatedDisplay 0) :=
  ibis_renderer_extract_async ⟨none, some (.named "ibis_0"), none, []⟩ "json" false
    [("ibis_0", .tbl ⟨[("a", "int64")], [], "c"⟩)] [] (.tbl ⟨[("a", "int64")], [], "c"⟩)
    (Or.inr (Or.inr (Or.inl rfl))) rfl
